import Mathlib

/-!
# Exact MVA (mva.cpp): embedding and verification

The source is embedded twice.

* Over exact rational arithmetic (`ℚ`): `exactMVA`, `exactMVA_MT`, `checkArrays`
  and the definitions they are built from.  This is the reading in which the
  recurrence of the specification is stated.  Where a divisor is `0` the
  quotient is the `ℚ` value `x / 0 = 0`; `divisor_pos` shows that for
  non-negative demands and think time no divisor is `0` unless the think time
  and every demand are `0`.
* Over double arithmetic (`Dbl`): the definitions whose names end in `_dbl`.
  Every operation is rounded once, to nearest with ties to even, to 53
  significant bits, with gradual underflow, overflow to an infinity, and the
  IEEE 754 rules for infinities and NaN.  This is the arithmetic the code runs.

`uint` is the 32-bit unsigned type: the population counter `jobs` of the main
cycle is incremented modulo `2 ^ 32`, so the cycle is modelled with fuel, and a
call returns when some fuel gives `some` result.

`std::vector` indexing is modelled by `List.getD` / `List.set`; the theorems
that depend on it carry the length hypotheses under which every access of the
source is in bounds.
-/

namespace ExactMVA

/-- Number of values of the 32-bit `uint` type. -/
def UINT_RANGE : Nat := 2 ^ 32

/-- The local variables of `exactMVA` that live across the main cycle, together
with the in/out buffer `response`. -/
structure MVAState where
  response : List ℚ
  num_jobs : List ℚ
  tot_resp : ℚ
  thr : ℚ
deriving DecidableEq

/-- Body of the station loop (mva.cpp lines 27-29) for station `k`. -/
def stationStep (demand : List ℚ) (k : Nat) (s : MVAState) : MVAState :=
  let num_jobs := s.num_jobs.set k (s.thr * s.response.getD k 0)
  let response := s.response.set k (demand.getD k 0 * (1 + num_jobs.getD k 0))
  { response := response
    num_jobs := num_jobs
    tot_resp := s.tot_resp + response.getD k 0
    thr := s.thr }

/-- The loop `for (uint k=0; k<num_stations; k++)` run over the stations `lo, lo+1, .., lo+cnt-1`. -/
def stationRange (demand : List ℚ) (lo cnt : Nat) (s : MVAState) : MVAState :=
  (List.range' lo cnt).foldl (fun st k => stationStep demand k st) s

/-- The station loop of `exactMVA` (mva.cpp lines 25-30). -/
def stationLoop (demand : List ℚ) (num_stations : Nat) (s : MVAState) : MVAState :=
  stationRange demand 0 num_stations s

/-- Body of the main cycle of `exactMVA` (mva.cpp lines 24-31) at counter value
`jobs`, over exact arithmetic; at a zero divisor the quotient is `0` here, where
the code gets an infinity or a NaN (`jobsBody_dbl`). -/
def jobsBody (demand : List ℚ) (num_stations : Nat) (think_time : ℚ) (jobs : Nat)
    (s : MVAState) : MVAState :=
  let s1 := stationLoop demand num_stations { s with tot_resp := 0 }
  { s1 with thr := (jobs : ℚ) / (think_time + s1.tot_resp) }

/-- The main cycle `for (uint jobs=1; jobs<=tot_jobs; jobs++)`, entered with the
counter at `jobs`; `none` when the fuel runs out before the guard fails. -/
def jobsLoop (demand : List ℚ) (num_stations tot_jobs : Nat) (think_time : ℚ) :
    Nat → Nat → MVAState → Option MVAState
  | 0, _, _ => none
  | fuel + 1, jobs, s =>
    if jobs ≤ tot_jobs then
      jobsLoop demand num_stations tot_jobs think_time fuel ((jobs + 1) % UINT_RANGE)
        (jobsBody demand num_stations think_time jobs s)
    else some s

/-- State of `exactMVA` on entry to the main cycle (mva.cpp lines 19-20). -/
def initState (response : List ℚ) (num_stations : Nat) : MVAState :=
  { response := response, num_jobs := List.replicate num_stations 0, tot_resp := 0, thr := 0 }

/-- Final local state of `exactMVA` (mva.cpp lines 17-33). -/
def exactMVA_run (fuel : Nat) (response demand : List ℚ) (num_stations tot_jobs : Nat)
    (think_time : ℚ) : Option MVAState :=
  jobsLoop demand num_stations tot_jobs think_time fuel 1 (initState response num_stations)

/-- The function `exactMVA` (mva.cpp lines 17-33): content of `response` after the call. -/
def exactMVA (fuel : Nat) (response demand : List ℚ) (num_stations tot_jobs : Nat)
    (think_time : ℚ) : Option (List ℚ) :=
  (exactMVA_run fuel response demand num_stations tot_jobs think_time).map (fun s => s.response)

/-- State after the first `n` passes through the body of the main cycle: pass
`i` runs with the counter at `i % 2 ^ 32`. -/
def stepState (demand : List ℚ) (num_stations : Nat) (think_time : ℚ) (s0 : MVAState) :
    Nat → MVAState
  | 0 => s0
  | n + 1 => jobsBody demand num_stations think_time ((n + 1) % UINT_RANGE)
      (stepState demand num_stations think_time s0 n)

/-! ### The concurrent engine -/

/-- The work-shared station loop of `exactMVA_MT` (mva.cpp lines 48-54) under a
static schedule: worker `t` owns the contiguous block of `sizes[t]` stations that
starts at `lo`, updates the shared vectors there and accumulates its own private
copy of `tot_resp`, which the reduction clause initialises to `0`.  The blocks
are disjoint, so the workers write different entries of the shared vectors and
the blocks can be run one after the other.  Returns the shared state and the
private sums, one per worker. -/
def workerChunks (demand : List ℚ) : Nat → List Nat → MVAState → MVAState × List ℚ
  | _, [], s => (s, [])
  | lo, c :: cs, s =>
    let s1 := stationRange demand lo c { s with tot_resp := 0 }
    let rest := workerChunks demand (lo + c) cs { s1 with tot_resp := s.tot_resp }
    (rest.1, s1.tot_resp :: rest.2)

/-- End of the reduction: the private sums are added to the shared `tot_resp`
in the order `order` of worker numbers.  Over exact arithmetic the result does
not depend on the split or on the order; with the rounded additions of the code
it does (`reduceSum_dbl`). -/
def reduceSum (order : List Nat) (partials : List ℚ) (tot_resp : ℚ) : ℚ :=
  order.foldl (fun acc t => acc + partials.getD t 0) tot_resp

/-- Body of the main cycle of `exactMVA_MT` (mva.cpp lines 48-60) at counter
value `jobs`, for the block sizes `sizes` and the combination order `order`. -/
def jobsBody_MT (sizes order : List Nat) (demand : List ℚ) (think_time : ℚ) (jobs : Nat)
    (s : MVAState) : MVAState :=
  let w := workerChunks demand 0 sizes s
  let tot_resp := reduceSum order w.2 w.1.tot_resp
  { w.1 with thr := (jobs : ℚ) / (think_time + tot_resp), tot_resp := 0 }

/-- The main cycle of `exactMVA_MT`; `sched jobs` gives the block sizes and the
combination order used in the pass with counter value `jobs`. -/
def jobsLoop_MT (sched : Nat → List Nat × List Nat) (demand : List ℚ) (tot_jobs : Nat)
    (think_time : ℚ) : Nat → Nat → MVAState → Option MVAState
  | 0, _, _ => none
  | fuel + 1, jobs, s =>
    if jobs ≤ tot_jobs then
      jobsLoop_MT sched demand tot_jobs think_time fuel ((jobs + 1) % UINT_RANGE)
        (jobsBody_MT (sched jobs).1 (sched jobs).2 demand think_time jobs s)
    else some s

/-- The function `exactMVA_MT` (mva.cpp lines 35-64): content of `response` after the call. -/
def exactMVA_MT (sched : Nat → List Nat × List Nat) (fuel : Nat) (response demand : List ℚ)
    (num_stations tot_jobs : Nat) (think_time : ℚ) : Option (List ℚ) :=
  (jobsLoop_MT sched demand tot_jobs think_time fuel 1 (initState response num_stations)).map
    (fun s => s.response)

/-- A schedule of the station loop over `num_stations` stations: the blocks
cover the stations and every worker's private sum is combined exactly once. -/
def ValidSched (num_stations : Nat) (sched : Nat → List Nat × List Nat) : Prop :=
  ∀ jobs, (sched jobs).1.sum = num_stations ∧
    List.Perm (sched jobs).2 (List.range (sched jobs).1.length)

/-! ### The comparator -/

/-- The constant `ZERO_APPROX` (mva.cpp line 15). -/
def ZERO_APPROX : ℚ := 1 / 1000

/-- One line written to standard output by `checkArrays`. -/
inductive CheckLine where
  | almostEquals
  | attention (fails : Nat)
  | maxDifference (max_diff : ℚ)
  | differentSizes
deriving DecidableEq

/-- The locals `fails` and `max_diff` of `checkArrays`. -/
structure CheckAcc where
  fails : Nat
  max_diff : ℚ
deriving DecidableEq

/-- Body of the comparison loop (mva.cpp lines 100-106) at index `i`. -/
def checkStep (arr1 arr2 : List ℚ) (acc : CheckAcc) (i : Nat) : CheckAcc :=
  let diff := |arr1.getD i 0 - arr2.getD i 0|
  { fails := if diff > ZERO_APPROX then (acc.fails + 1) % UINT_RANGE else acc.fails
    max_diff := if diff > acc.max_diff then diff else acc.max_diff }

/-- The comparison loop (mva.cpp lines 98-107); the `uint` index visits
`0 .. size-1` once for vectors shorter than `2 ^ 32`. -/
def checkLoop (arr1 arr2 : List ℚ) : CheckAcc :=
  (List.range arr1.length).foldl (checkStep arr1 arr2) { fails := 0, max_diff := 0 }

/-- The function `checkArrays` (mva.cpp lines 92-118): the lines it prints.  It
has no `throw`: every call returns normally, which is `Except.ok`. -/
def checkArrays (arr1 arr2 : List ℚ) : Except String (List CheckLine) :=
  if arr1.length = arr2.length then
    let acc := checkLoop arr1 arr2
    Except.ok [if acc.fails = 0 then CheckLine.almostEquals else CheckLine.attention acc.fails,
      CheckLine.maxDifference acc.max_diff]
  else
    Except.ok [CheckLine.differentSizes]

/-! ### The caller -/

/-- The global throughput derived by `main` (mva.cpp lines 199-202). -/
def mainThroughput (responseST : List ℚ) (num_stations num_jobs : Nat) (think_time : ℚ) : ℚ :=
  let sys_resp := (List.range num_stations).foldl (fun acc k => acc + responseST.getD k 0) 0
  (num_jobs : ℚ) / (think_time + sys_resp)

/-! ### The recurrence of the specification -/

/-- The Exact MVA recurrence as the specification words it: `R_k(0) = 0`,
`X(0) = 0`, `R_k(n) = D_k * (1 + X(n-1) * R_k(n-1))` and
`X(n) = n / (Z + sum_k R_k(n))`.  The pair is `(R(n), X(n))`. -/
def specMVA (D : List ℚ) (K : Nat) (Z : ℚ) : Nat → (Nat → ℚ) × ℚ
  | 0 => (fun _ => 0, 0)
  | n + 1 =>
    let prev := specMVA D K Z n
    let R : Nat → ℚ := fun k => D.getD k 0 * (1 + prev.2 * prev.1 k)
    (R, ((n + 1 : Nat) : ℚ) / (Z + ∑ k in Finset.range K, R k))

/-- Response time `R_k(n)` of the specification. -/
def specR (D : List ℚ) (K : Nat) (Z : ℚ) (n k : Nat) : ℚ := (specMVA D K Z n).1 k

/-- Throughput `X(n)` of the specification. -/
def specX (D : List ℚ) (K : Nat) (Z : ℚ) (n : Nat) : ℚ := (specMVA D K Z n).2

/-- The vector `R(n)` of the specification, stations `0 .. K-1`. -/
def specVec (D : List ℚ) (K : Nat) (Z : ℚ) (n : Nat) : List ℚ :=
  (List.range K).map (specR D K Z n)

/-- The value the station loop writes to `response[k]` when it reads `r` there. -/
def stationVal (demand : List ℚ) (thr : ℚ) (k : Nat) (r : ℚ) : ℚ :=
  demand.getD k 0 * (1 + thr * r)

/-- Sum of the response times `R_k(n)` of the specification over the stations. -/
def specTot (D : List ℚ) (K : Nat) (Z : ℚ) (n : Nat) : ℚ :=
  ∑ k in Finset.range K, specR D K Z n k

/-- Mean queue length `X(n) * R_k(n)` of station `k` at population `n`. -/
def queueLen (D : List ℚ) (K : Nat) (Z : ℚ) (n k : Nat) : ℚ :=
  specX D K Z n * specR D K Z n k

/-- Every demand of the stations `0 .. K-1` is non-negative. -/
def NonnegDemand (D : List ℚ) (K : Nat) : Prop :=
  ∀ k, k < K → 0 ≤ D.getD k 0

/-- The divisor `think_time + tot_resp` that `exactMVA` evaluates on line 31 in
pass `n` of the main cycle, for the buffer `response` passed in. -/
def divisorAt (response demand : List ℚ) (num_stations : Nat) (think_time : ℚ) (n : Nat) : ℚ :=
  think_time + (stepState demand num_stations think_time (initState response num_stations) n).tot_resp

/-- A value of the C++ type `double` (IEEE 754 binary64): a finite number, an
infinity or a NaN.  The sign of a zero is not recorded: the source divides only
by `think_time + tot_resp`, a sum with the accumulator that starts at `+0.0`,
which is never `-0.0`. -/
inductive Dbl where
  | fin (q : ℚ)
  | pinf
  | ninf
  | nan
deriving DecidableEq

/-- Position of the leading binary digit of `n >= 1`, found in at most `fuel` halvings. -/
def log2Fuel : Nat → Nat → Nat
  | 0, _ => 0
  | fuel + 1, n => if n < 2 then 0 else 1 + log2Fuel fuel (n / 2)

/-- The binary exponent of `a > 0`: the `e` with `2 ^ e <= a < 2 ^ (e + 1)`. -/
def binExp (a : ℚ) : Int :=
  let e0 : Int := (log2Fuel a.num.natAbs a.num.natAbs : Int) - (log2Fuel a.den a.den : Int)
  if a < (2 : ℚ) ^ e0 then e0 - 1 else e0

/-- Rounding of `m >= 0` to the nearest integer, ties to the even one. -/
def roundHalfEven (m : ℚ) : Int :=
  let f := ⌊m⌋
  let twice := 2 * (m - f)
  if twice < 1 then f else if 1 < twice then f + 1 else if f % 2 = 0 then f else f + 1

/-- Rounding of a real result to `double` in the default mode (to nearest, ties
to even): 53 significant bits, gradual underflow below `2 ^ (-1022)`, overflow
to an infinity from `2 ^ 1024` on. -/
def roundDbl (q : ℚ) : Dbl :=
  if q = 0 then Dbl.fin 0
  else
    let a := |q|
    let ulp := (2 : ℚ) ^ (max (binExp a) (-1022) - 52)
    let r := (roundHalfEven (a / ulp) : ℚ) * ulp
    if (2 : ℚ) ^ (1024 : Int) ≤ r then (if 0 < q then Dbl.pinf else Dbl.ninf)
    else Dbl.fin (if 0 < q then r else -r)

/-- Addition of doubles. -/
def Dbl.add : Dbl → Dbl → Dbl
  | Dbl.fin a, Dbl.fin b => roundDbl (a + b)
  | Dbl.nan, _ => Dbl.nan
  | _, Dbl.nan => Dbl.nan
  | Dbl.pinf, Dbl.ninf => Dbl.nan
  | Dbl.ninf, Dbl.pinf => Dbl.nan
  | Dbl.pinf, _ => Dbl.pinf
  | _, Dbl.pinf => Dbl.pinf
  | Dbl.ninf, _ => Dbl.ninf
  | _, Dbl.ninf => Dbl.ninf

/-- Negation of a double. -/
def Dbl.neg : Dbl → Dbl
  | Dbl.fin a => Dbl.fin (-a)
  | Dbl.pinf => Dbl.ninf
  | Dbl.ninf => Dbl.pinf
  | Dbl.nan => Dbl.nan

/-- Sign of a double that is not a NaN: `1`, `0` or `-1`. -/
def Dbl.sign : Dbl → Int
  | Dbl.fin a => if 0 < a then 1 else if a < 0 then -1 else 0
  | Dbl.pinf => 1
  | Dbl.ninf => -1
  | Dbl.nan => 0

/-- Multiplication of doubles. -/
def Dbl.mul : Dbl → Dbl → Dbl
  | Dbl.fin a, Dbl.fin b => roundDbl (a * b)
  | Dbl.nan, _ => Dbl.nan
  | _, Dbl.nan => Dbl.nan
  | x, y =>
    if Dbl.sign x * Dbl.sign y = 0 then Dbl.nan
    else if 0 < Dbl.sign x * Dbl.sign y then Dbl.pinf else Dbl.ninf

/-- Division of doubles; a finite zero divisor is `+0.0`. -/
def Dbl.div : Dbl → Dbl → Dbl
  | Dbl.nan, _ => Dbl.nan
  | _, Dbl.nan => Dbl.nan
  | Dbl.fin a, Dbl.fin b =>
    if b = 0 then (if a = 0 then Dbl.nan else if 0 < a then Dbl.pinf else Dbl.ninf)
    else roundDbl (a / b)
  | Dbl.fin _, _ => Dbl.fin 0
  | x, Dbl.fin b =>
    if 0 ≤ b then x else Dbl.neg x
  | _, _ => Dbl.nan

/-- The comparison `x <= y` of doubles, false when either is a NaN. -/
def Dbl.le : Dbl → Dbl → Bool
  | Dbl.nan, _ => false
  | _, Dbl.nan => false
  | Dbl.fin a, Dbl.fin b => decide (a ≤ b)
  | Dbl.ninf, _ => true
  | _, Dbl.pinf => true
  | Dbl.pinf, _ => false
  | Dbl.fin _, Dbl.ninf => false

/-- Conversion of a `uint` to `double`, exact below `2 ^ 53`. -/
def Dbl.ofUInt (n : Nat) : Dbl := roundDbl (n : ℚ)

/-! ### The engines and the comparator in double arithmetic -/

/-- The variables of `exactMVA` as the doubles they are. -/
structure MVAState_dbl where
  response : List Dbl
  num_jobs : List Dbl
  tot_resp : Dbl
  thr : Dbl
deriving DecidableEq

/-- Body of the station loop (mva.cpp lines 27-29) in double arithmetic. -/
def stationStep_dbl (demand : List Dbl) (k : Nat) (s : MVAState_dbl) : MVAState_dbl :=
  let num_jobs := s.num_jobs.set k (Dbl.mul s.thr (s.response.getD k (Dbl.fin 0)))
  let response := s.response.set k
    (Dbl.mul (demand.getD k (Dbl.fin 0)) (Dbl.add (Dbl.fin 1) (num_jobs.getD k (Dbl.fin 0))))
  { response := response
    num_jobs := num_jobs
    tot_resp := Dbl.add s.tot_resp (response.getD k (Dbl.fin 0))
    thr := s.thr }

/-- The station loop over the stations `lo .. lo+cnt-1` in double arithmetic. -/
def stationRange_dbl (demand : List Dbl) (lo cnt : Nat) (s : MVAState_dbl) : MVAState_dbl :=
  (List.range' lo cnt).foldl (fun st k => stationStep_dbl demand k st) s

/-- Body of the main cycle of `exactMVA` (mva.cpp lines 24-31) in double arithmetic. -/
def jobsBody_dbl (demand : List Dbl) (num_stations : Nat) (think_time : Dbl) (jobs : Nat)
    (s : MVAState_dbl) : MVAState_dbl :=
  let s1 := stationRange_dbl demand 0 num_stations { s with tot_resp := Dbl.fin 0 }
  { s1 with thr := Dbl.div (Dbl.ofUInt jobs) (Dbl.add think_time s1.tot_resp) }

/-- The main cycle of `exactMVA` in double arithmetic. -/
def jobsLoop_dbl (demand : List Dbl) (num_stations tot_jobs : Nat) (think_time : Dbl) :
    Nat → Nat → MVAState_dbl → Option MVAState_dbl
  | 0, _, _ => none
  | fuel + 1, jobs, s =>
    if jobs ≤ tot_jobs then
      jobsLoop_dbl demand num_stations tot_jobs think_time fuel ((jobs + 1) % UINT_RANGE)
        (jobsBody_dbl demand num_stations think_time jobs s)
    else some s

/-- State of the engines on entry to the main cycle, in double arithmetic. -/
def initState_dbl (response : List Dbl) (num_stations : Nat) : MVAState_dbl :=
  { response := response, num_jobs := List.replicate num_stations (Dbl.fin 0),
    tot_resp := Dbl.fin 0, thr := Dbl.fin 0 }

/-- The function `exactMVA` (mva.cpp lines 17-33) in double arithmetic. -/
def exactMVA_dbl (fuel : Nat) (response demand : List Dbl) (num_stations tot_jobs : Nat)
    (think_time : Dbl) : Option (List Dbl) :=
  (jobsLoop_dbl demand num_stations tot_jobs think_time fuel 1
    (initState_dbl response num_stations)).map (fun s => s.response)

theorem getD_set_self (l : List ℚ) (k : Nat) (v : ℚ) (h : k < l.length) :
    (l.set k v).getD k 0 = v := by
  simp [List.getD_eq_getElem?_getD, List.getElem?_set, h]

theorem getD_set_other (l : List ℚ) (k i : Nat) (v : ℚ) (h : k ≠ i) :
    (l.set k v).getD i 0 = l.getD i 0 := by
  simp [List.getD_eq_getElem?_getD, List.getElem?_set, h]

theorem list_ext_getD (l1 l2 : List ℚ) (hlen : l1.length = l2.length)
    (h : ∀ i, i < l1.length → l1.getD i 0 = l2.getD i 0) : l1 = l2 := by
  apply List.ext_getElem hlen
  intro i h1 h2
  have := h i h1
  simpa [List.getD_eq_getElem?_getD, List.getElem?_eq_getElem h1, List.getElem?_eq_getElem h2] using this

theorem stationStep_eq (demand : List ℚ) (k : Nat) (s : MVAState)
    (hr : k < s.response.length) (hn : k < s.num_jobs.length) :
    stationStep demand k s =
      { response := s.response.set k (stationVal demand s.thr k (s.response.getD k 0))
        num_jobs := s.num_jobs.set k (s.thr * s.response.getD k 0)
        tot_resp := s.tot_resp + stationVal demand s.thr k (s.response.getD k 0)
        thr := s.thr } := by
  simp only [stationStep, stationVal, getD_set_self _ _ _ hn, getD_set_self _ _ _ hr]


theorem stationRange_succ (demand : List ℚ) (lo cnt : Nat) (s : MVAState) :
    stationRange demand lo (cnt + 1) s = stationRange demand (lo + 1) cnt (stationStep demand lo s) := by
  simp [stationRange, List.range'_succ]

theorem stationRange_props (demand : List ℚ) (cnt : Nat) : ∀ (lo : Nat) (s : MVAState),
    lo + cnt ≤ s.response.length → lo + cnt ≤ s.num_jobs.length →
    (stationRange demand lo cnt s).thr = s.thr ∧
    (stationRange demand lo cnt s).response.length = s.response.length ∧
    (stationRange demand lo cnt s).num_jobs.length = s.num_jobs.length ∧
    (∀ i, (stationRange demand lo cnt s).response.getD i 0 =
      if lo ≤ i ∧ i < lo + cnt then stationVal demand s.thr i (s.response.getD i 0)
      else s.response.getD i 0) ∧
    (stationRange demand lo cnt s).tot_resp = s.tot_resp +
      ∑ i in Finset.range cnt, stationVal demand s.thr (lo + i) (s.response.getD (lo + i) 0) := by
  induction cnt with
  | zero =>
    intro lo s _ _
    refine ⟨rfl, rfl, rfl, ?_, ?_⟩
    · intro i
      have : ¬ (lo ≤ i ∧ i < lo + 0) := by omega
      rw [if_neg this]
      rfl
    · simp [stationRange]
  | succ cnt ih =>
    intro lo s hr hn
    have hr0 : lo < s.response.length := by omega
    have hn0 : lo < s.num_jobs.length := by omega
    rw [stationRange_succ, stationStep_eq demand lo s hr0 hn0]
    obtain ⟨h1, h2, h3, h4, h5⟩ := ih (lo + 1)
      { response := s.response.set lo (stationVal demand s.thr lo (s.response.getD lo 0))
        num_jobs := s.num_jobs.set lo (s.thr * s.response.getD lo 0)
        tot_resp := s.tot_resp + stationVal demand s.thr lo (s.response.getD lo 0)
        thr := s.thr } (by simp; omega) (by simp; omega)
    refine ⟨h1, by simpa using h2, by simpa using h3, ?_, ?_⟩
    · intro i
      rw [h4 i]
      by_cases hi : i = lo
      · subst hi
        have : ¬ (i + 1 ≤ i ∧ i < i + 1 + cnt) := by omega
        have h' : i ≤ i ∧ i < i + (cnt + 1) := by omega
        simp only [this, h', if_false, if_true]
        exact getD_set_self _ _ _ hr0
      · have hne : lo ≠ i := fun h => hi h.symm
        simp only [getD_set_other _ _ _ _ hne]
        by_cases hc : lo + 1 ≤ i ∧ i < lo + 1 + cnt
        · have h' : lo ≤ i ∧ i < lo + (cnt + 1) := by omega
          simp only [hc, h', and_self, if_true]
        · have h' : ¬ (lo ≤ i ∧ i < lo + (cnt + 1)) := by omega
          simp only [hc, h', if_false]
    · rw [h5, Finset.sum_range_succ']
      simp only [Nat.add_zero]
      have : ∀ i, lo + 1 + i = lo + (i + 1) := by intro i; omega
      have hs : ∀ i, (s.response.set lo (stationVal demand s.thr lo
          (s.response.getD lo 0))).getD (lo + (i + 1)) 0 = s.response.getD (lo + (i + 1)) 0 := by
        intro i
        rw [getD_set_other _ _ _ _ (by omega)]
      simp only [this, hs]
      ring

/-! ## The body of the main cycle -/

theorem jobsBody_props (demand : List ℚ) (K : Nat) (Z : ℚ) (jobs : Nat) (s : MVAState)
    (hr : s.response.length = K) (hn : s.num_jobs.length = K) :
    (jobsBody demand K Z jobs s).response.length = K ∧
    (jobsBody demand K Z jobs s).num_jobs.length = K ∧
    (∀ i, i < K → (jobsBody demand K Z jobs s).response.getD i 0 =
      stationVal demand s.thr i (s.response.getD i 0)) ∧
    (jobsBody demand K Z jobs s).tot_resp =
      ∑ i in Finset.range K, stationVal demand s.thr i (s.response.getD i 0) ∧
    (jobsBody demand K Z jobs s).thr =
      (jobs : ℚ) / (Z + ∑ i in Finset.range K, stationVal demand s.thr i (s.response.getD i 0)) := by
  obtain ⟨h1, h2, h3, h4, h5⟩ := stationRange_props demand K 0 { s with tot_resp := 0 }
    (by simp [hr]) (by simp [hn])
  simp only [Nat.zero_add, zero_add] at h1 h2 h3 h4 h5
  refine ⟨?_, ?_, ?_, ?_, ?_⟩
  · simpa [jobsBody, stationLoop, hr] using h2
  · simpa [jobsBody, stationLoop, hn] using h3
  · intro i hi
    have := h4 i
    simp only [Nat.zero_le, true_and, hi, if_true] at this
    simpa [jobsBody, stationLoop] using this
  · simpa [jobsBody, stationLoop] using h5
  · simp only [jobsBody, stationLoop]
    rw [h5]

theorem initState_thr (response : List ℚ) (K : Nat) : (initState response K).thr = 0 := rfl

/-! ## The main cycle computes the recurrence of the specification -/

theorem specR_zero (D : List ℚ) (K : Nat) (Z : ℚ) (k : Nat) : specR D K Z 0 k = 0 := rfl

theorem specX_zero (D : List ℚ) (K : Nat) (Z : ℚ) : specX D K Z 0 = 0 := rfl

theorem specR_succ (D : List ℚ) (K : Nat) (Z : ℚ) (n k : Nat) :
    specR D K Z (n + 1) k = D.getD k 0 * (1 + specX D K Z n * specR D K Z n k) := rfl

theorem specX_succ (D : List ℚ) (K : Nat) (Z : ℚ) (n : Nat) :
    specX D K Z (n + 1) =
      ((n + 1 : Nat) : ℚ) / (Z + ∑ k in Finset.range K, specR D K Z (n + 1) k) := rfl

theorem stepState_spec (D : List ℚ) (K : Nat) (Z : ℚ) (resp : List ℚ) (hr : resp.length = K) :
    ∀ n, n < UINT_RANGE →
    (stepState D K Z (initState resp K) n).response.length = K ∧
    (stepState D K Z (initState resp K) n).num_jobs.length = K ∧
    (stepState D K Z (initState resp K) n).thr = specX D K Z n ∧
    (∀ k, k < K → (stepState D K Z (initState resp K) n).thr *
        (stepState D K Z (initState resp K) n).response.getD k 0 =
        specX D K Z n * specR D K Z n k) ∧
    (1 ≤ n → (∀ k, k < K →
        (stepState D K Z (initState resp K) n).response.getD k 0 = specR D K Z n k) ∧
      (stepState D K Z (initState resp K) n).tot_resp =
        ∑ k in Finset.range K, specR D K Z n k) := by
  intro n
  induction n with
  | zero =>
    intro _
    refine ⟨hr, by simp [stepState, initState], rfl, ?_, by omega⟩
    intro k _
    simp [stepState, initState, specX_zero]
  | succ n ih =>
    intro hn
    obtain ⟨h1, h2, h3, h4, _⟩ := ih (by omega)
    obtain ⟨b1, b2, b3, b4, b5⟩ := jobsBody_props D K Z ((n + 1) % UINT_RANGE)
      (stepState D K Z (initState resp K) n) h1 h2
    have hval : ∀ k, k < K → stationVal D (stepState D K Z (initState resp K) n).thr k
        ((stepState D K Z (initState resp K) n).response.getD k 0) = specR D K Z (n + 1) k := by
      intro k hk
      rw [specR_succ, stationVal, h4 k hk]
    have hsum : ∑ i in Finset.range K, stationVal D (stepState D K Z (initState resp K) n).thr i
        ((stepState D K Z (initState resp K) n).response.getD i 0) =
        ∑ k in Finset.range K, specR D K Z (n + 1) k :=
      Finset.sum_congr rfl (fun k hk => hval k (Finset.mem_range.mp hk))
    have hresp : ∀ k, k < K → (stepState D K Z (initState resp K) (n + 1)).response.getD k 0 =
        specR D K Z (n + 1) k := by
      intro k hk
      show (jobsBody D K Z ((n + 1) % UINT_RANGE) _).response.getD k 0 = _
      rw [b3 k hk, hval k hk]
    have hthr : (stepState D K Z (initState resp K) (n + 1)).thr = specX D K Z (n + 1) := by
      show (jobsBody D K Z ((n + 1) % UINT_RANGE) _).thr = _
      rw [b5, hsum, specX_succ, Nat.mod_eq_of_lt hn]
    refine ⟨b1, b2, hthr, ?_, fun _ => ⟨hresp, ?_⟩⟩
    · intro k hk
      rw [hthr, hresp k hk]
    · show (jobsBody D K Z ((n + 1) % UINT_RANGE) _).tot_resp = _
      rw [b4, hsum]

/-! ## Termination of the main cycle -/

theorem stepState_succ_of_lt (D : List ℚ) (K : Nat) (Z : ℚ) (s0 : MVAState) (n : Nat)
    (hn : n + 1 < UINT_RANGE) :
    jobsBody D K Z (n + 1) (stepState D K Z s0 n) = stepState D K Z s0 (n + 1) := by
  show _ = jobsBody D K Z ((n + 1) % UINT_RANGE) _
  rw [Nat.mod_eq_of_lt hn]

theorem jobsLoop_char (D : List ℚ) (K N : Nat) (Z : ℚ) (s0 : MVAState)
    (hN : N + 1 < UINT_RANGE) : ∀ (fuel n : Nat), n ≤ N →
    jobsLoop D K N Z fuel (n + 1) (stepState D K Z s0 n) =
      if N - n < fuel then some (stepState D K Z s0 N) else none := by
  intro fuel
  induction fuel with
  | zero =>
    intro n _
    simp [jobsLoop]
  | succ fuel ih =>
    intro n hn
    by_cases hg : n + 1 ≤ N
    · have hmod : (n + 1 + 1) % UINT_RANGE = n + 1 + 1 := Nat.mod_eq_of_lt (by omega)
      rw [jobsLoop, if_pos hg, hmod, stepState_succ_of_lt D K Z s0 n (by omega), ih (n + 1) hg]
      by_cases hf : N - (n + 1) < fuel
      · rw [if_pos hf, if_pos (by omega)]
      · rw [if_neg hf, if_neg (by omega)]
    · have hnN : n = N := by omega
      rw [jobsLoop, if_neg hg, if_pos (by omega), hnN]

theorem jobsLoop_diverges (D : List ℚ) (K : Nat) (Z : ℚ) : ∀ (fuel jobs : Nat) (s : MVAState),
    jobs < UINT_RANGE → jobsLoop D K (UINT_RANGE - 1) Z fuel jobs s = none := by
  intro fuel
  induction fuel with
  | zero => intro jobs s _; rfl
  | succ fuel ih =>
    intro jobs s hj
    rw [jobsLoop, if_pos (by omega)]
    exact ih _ _ (Nat.mod_lt _ (by decide))

theorem exactMVA_run_char (fuel : Nat) (resp D : List ℚ) (K N : Nat) (Z : ℚ)
    (hN : N + 1 < UINT_RANGE) :
    exactMVA_run fuel resp D K N Z =
      if N < fuel then some (stepState D K Z (initState resp K) N) else none := by
  have := jobsLoop_char D K N Z (initState resp K) hN fuel 0 (Nat.zero_le _)
  simpa [exactMVA_run, stepState] using this

theorem exactMVA_run_diverges (fuel : Nat) (resp D : List ℚ) (K : Nat) (Z : ℚ) :
    exactMVA_run fuel resp D K (UINT_RANGE - 1) Z = none :=
  jobsLoop_diverges D K Z fuel 1 _ (by decide)

/-- Whatever `exactMVA` returns is the state after `tot_jobs` passes, and the
counter has not wrapped. -/
theorem exactMVA_run_some (fuel : Nat) (resp D : List ℚ) (K N : Nat) (Z : ℚ) (s : MVAState)
    (hN : N < UINT_RANGE) (h : exactMVA_run fuel resp D K N Z = some s) :
    N + 1 < UINT_RANGE ∧ s = stepState D K Z (initState resp K) N := by
  by_cases hmax : N = UINT_RANGE - 1
  · rw [hmax, exactMVA_run_diverges] at h
    exact absurd h (by simp)
  · have hN1 : N + 1 < UINT_RANGE := by omega
    refine ⟨hN1, ?_⟩
    rw [exactMVA_run_char fuel resp D K N Z hN1] at h
    by_cases hf : N < fuel
    · rw [if_pos hf] at h
      exact (Option.some.inj h).symm
    · rw [if_neg hf] at h
      exact absurd h (by simp)

/-! ## The response vector left by `exactMVA` -/

theorem specVec_length (D : List ℚ) (K : Nat) (Z : ℚ) (n : Nat) :
    (specVec D K Z n).length = K := by
  simp [specVec]

theorem specVec_getD (D : List ℚ) (K : Nat) (Z : ℚ) (n k : Nat) (hk : k < K) :
    (specVec D K Z n).getD k 0 = specR D K Z n k := by
  simp [specVec, List.getD_eq_getElem?_getD, List.getElem?_map, List.getElem?_range hk]

theorem stepState_response (D : List ℚ) (K : Nat) (Z : ℚ) (resp : List ℚ)
    (hr : resp.length = K) (n : Nat) (hn1 : 1 ≤ n) (hn : n < UINT_RANGE) :
    (stepState D K Z (initState resp K) n).response = specVec D K Z n := by
  obtain ⟨h1, _, _, _, h5⟩ := stepState_spec D K Z resp hr n hn
  apply list_ext_getD
  · rw [h1, specVec_length]
  · intro i hi
    rw [h1] at hi
    rw [(h5 hn1).1 i hi, specVec_getD D K Z n i hi]

/-- For a population below `2 ^ 32 - 1` the call returns as soon as the fuel
exceeds the population, and it leaves the vector `R(N)` of the recurrence. -/
theorem exactMVA_char (fuel : Nat) (resp D : List ℚ) (K N : Nat) (Z : ℚ)
    (hr : resp.length = K) (hN1 : 1 ≤ N) (hN : N + 1 < UINT_RANGE) :
    exactMVA fuel resp D K N Z = if N < fuel then some (specVec D K Z N) else none := by
  rw [exactMVA, exactMVA_run_char fuel resp D K N Z hN]
  by_cases hf : N < fuel
  · rw [if_pos hf, if_pos hf, Option.map_some', stepState_response D K Z resp hr N hN1 (by omega)]
  · rw [if_neg hf, if_neg hf, Option.map_none']

/-- Every vector `exactMVA` leaves for a population `N >= 1` is `R(N)`. -/
theorem exactMVA_some (fuel : Nat) (resp D r : List ℚ) (K N : Nat) (Z : ℚ)
    (hr : resp.length = K) (hN1 : 1 ≤ N) (hN : N < UINT_RANGE)
    (h : exactMVA fuel resp D K N Z = some r) : r = specVec D K Z N := by
  rw [exactMVA] at h
  cases hrun : exactMVA_run fuel resp D K N Z with
  | none => rw [hrun] at h; exact absurd h (by simp)
  | some s =>
    rw [hrun, Option.map_some'] at h
    obtain ⟨hN', hs⟩ := exactMVA_run_some fuel resp D K N Z s hN hrun
    rw [← Option.some.inj h, hs, stepState_response D K Z resp hr N hN1 (by omega)]

/-! ## Sign and size of the quantities of the recurrence -/

theorem specX_succ_tot (D : List ℚ) (K : Nat) (Z : ℚ) (n : Nat) :
    specX D K Z (n + 1) = ((n + 1 : Nat) : ℚ) / (Z + specTot D K Z (n + 1)) := rfl

theorem spec_nonneg (D : List ℚ) (K : Nat) (Z : ℚ) (hD : NonnegDemand D K) (hZ : 0 ≤ Z) :
    ∀ n, 0 ≤ specX D K Z n ∧ ∀ k, k < K → 0 ≤ specR D K Z n k := by
  intro n
  induction n with
  | zero => exact ⟨le_refl _, fun k _ => le_refl _⟩
  | succ n ih =>
    have hR : ∀ k, k < K → 0 ≤ specR D K Z (n + 1) k := by
      intro k hk
      rw [specR_succ]
      exact mul_nonneg (hD k hk) (add_nonneg zero_le_one (mul_nonneg ih.1 (ih.2 k hk)))
    refine ⟨?_, hR⟩
    rw [specX_succ]
    apply div_nonneg (Nat.cast_nonneg _)
    exact add_nonneg hZ (Finset.sum_nonneg (fun k hk => hR k (Finset.mem_range.mp hk)))

theorem demand_le_specR (D : List ℚ) (K : Nat) (Z : ℚ) (hD : NonnegDemand D K) (hZ : 0 ≤ Z)
    (n k : Nat) (hk : k < K) : D.getD k 0 ≤ specR D K Z (n + 1) k := by
  obtain ⟨hX, hR⟩ := spec_nonneg D K Z hD hZ n
  rw [specR_succ]
  have h1 : 0 ≤ specX D K Z n * specR D K Z n k := mul_nonneg hX (hR k hk)
  nlinarith [hD k hk]

theorem demand_sum_le_specTot (D : List ℚ) (K : Nat) (Z : ℚ) (hD : NonnegDemand D K)
    (hZ : 0 ≤ Z) (n : Nat) :
    ∑ k in Finset.range K, D.getD k 0 ≤ specTot D K Z (n + 1) :=
  Finset.sum_le_sum (fun k hk => demand_le_specR D K Z hD hZ n k (Finset.mem_range.mp hk))

theorem specTot_nonneg (D : List ℚ) (K : Nat) (Z : ℚ) (hD : NonnegDemand D K)
    (hZ : 0 ≤ Z) (n : Nat) : 0 ≤ specTot D K Z n :=
  Finset.sum_nonneg (fun k hk => (spec_nonneg D K Z hD hZ n).2 k (Finset.mem_range.mp hk))

/-- The divisor of step `n + 1` is positive unless the network is degenerate. -/
theorem divisor_pos (D : List ℚ) (K : Nat) (Z : ℚ) (hD : NonnegDemand D K) (hZ : 0 ≤ Z)
    (hnd : 0 < Z + ∑ k in Finset.range K, D.getD k 0) (n : Nat) :
    0 < Z + specTot D K Z (n + 1) := by
  have := demand_sum_le_specTot D K Z hD hZ n
  linarith

/-- In the degenerate network every response time is `0`. -/
theorem specR_degenerate (D : List ℚ) (K : Nat) (Z : ℚ)
    (h0 : ∀ k, k < K → D.getD k 0 = 0) (n k : Nat) (hk : k < K) : specR D K Z n k = 0 := by
  cases n with
  | zero => rfl
  | succ n => rw [specR_succ, h0 k hk, zero_mul]

/-! ## Monotonicity in the population (think time `0`) -/

theorem queueLen_nonneg (D : List ℚ) (K : Nat) (hD : NonnegDemand D K) (n k : Nat)
    (hk : k < K) : 0 ≤ queueLen D K 0 n k :=
  mul_nonneg (spec_nonneg D K 0 hD (le_refl _) n).1 ((spec_nonneg D K 0 hD (le_refl _) n).2 k hk)

theorem queueLen_sum (D : List ℚ) (K : Nat) (hD : NonnegDemand D K)
    (hS : 0 < ∑ k in Finset.range K, D.getD k 0) (n : Nat) :
    ∑ k in Finset.range K, queueLen D K 0 n k = (n : ℚ) := by
  cases n with
  | zero => simp [queueLen, specX_zero]
  | succ n =>
    have hpos : 0 < (0 : ℚ) + specTot D K 0 (n + 1) :=
      divisor_pos D K 0 hD (le_refl _) (by simpa using hS) n
    simp only [queueLen]
    rw [← Finset.mul_sum, specX_succ_tot]
    have hT : specTot D K 0 (n + 1) ≠ 0 := by
      intro h
      rw [h] at hpos
      simp at hpos
    show _ / (0 + specTot D K 0 (n + 1)) * specTot D K 0 (n + 1) = _
    rw [zero_add, div_mul_cancel₀ _ hT]

theorem specTot_succ_succ (D : List ℚ) (K : Nat) (n : Nat) :
    specTot D K 0 (n + 2) = specTot D K 0 (n + 1) +
      ∑ k in Finset.range K, D.getD k 0 * (queueLen D K 0 (n + 1) k - queueLen D K 0 n k) := by
  simp only [specTot]
  rw [← Finset.sum_add_distrib]
  apply Finset.sum_congr rfl
  intro k _
  have h := specR_succ D K 0 n k
  rw [specR_succ D K 0 (n + 1) k]
  simp only [queueLen]
  linear_combination (-1 : ℚ) * h

theorem specR_succ_queueLen (D : List ℚ) (K : Nat) (n k : Nat) :
    specR D K 0 (n + 1) k = D.getD k 0 * (1 + queueLen D K 0 n k) := rfl

theorem queueLen_mono (D : List ℚ) (K : Nat) (hD : NonnegDemand D K)
    (hS : 0 < ∑ k in Finset.range K, D.getD k 0) : ∀ n,
    (∀ k, k < K → queueLen D K 0 n k ≤ queueLen D K 0 (n + 1) k) ∧
    specX D K 0 n ≤ specX D K 0 (n + 1) := by
  have hnn := spec_nonneg D K 0 hD (le_refl _)
  intro n
  induction n with
  | zero =>
    refine ⟨fun k hk => ?_, ?_⟩
    · have : queueLen D K 0 0 k = 0 := by simp [queueLen, specX_zero]
      rw [this]
      exact queueLen_nonneg D K hD 1 k hk
    · rw [specX_zero]
      exact (hnn 1).1
  | succ n ih =>
    obtain ⟨hq, hX⟩ := ih
    have hT1 : 0 < specTot D K 0 (n + 1) := by
      simpa using divisor_pos D K 0 hD (le_refl _) (by simpa using hS) n
    have hT2 : 0 < specTot D K 0 (n + 2) := by
      simpa using divisor_pos D K 0 hD (le_refl _) (by simpa using hS) (n + 1)
    have hX1 : specX D K 0 (n + 1) = ((n : ℚ) + 1) / specTot D K 0 (n + 1) := by
      rw [specX_succ_tot, zero_add]; push_cast; rfl
    have hX2 : specX D K 0 (n + 2) = ((n : ℚ) + 2) / specTot D K 0 (n + 2) := by
      rw [specX_succ_tot, zero_add]; push_cast; ring
    -- the queue lengths grow by at most one job in total
    have hdiff : ∑ k in Finset.range K, (queueLen D K 0 (n + 1) k - queueLen D K 0 n k) = 1 := by
      rw [Finset.sum_sub_distrib, queueLen_sum D K hD hS, queueLen_sum D K hD hS]
      push_cast; ring
    have hle1 : ∀ k, k < K → queueLen D K 0 (n + 1) k - queueLen D K 0 n k ≤ 1 := by
      intro k hk
      rw [← hdiff]
      exact Finset.single_le_sum (f := fun k => queueLen D K 0 (n + 1) k - queueLen D K 0 n k)
        (fun i hi => sub_nonneg.mpr (hq i (Finset.mem_range.mp hi))) (Finset.mem_range.mpr hk)
    have hXD : ∀ k, k < K → specX D K 0 (n + 1) * D.getD k 0 ≤ 1 := by
      intro k hk
      have hb : queueLen D K 0 (n + 1) k =
          specX D K 0 (n + 1) * D.getD k 0 * (1 + queueLen D K 0 n k) := by
        show specX D K 0 (n + 1) * specR D K 0 (n + 1) k = _
        rw [specR_succ_queueLen]; ring
      have ha : 0 ≤ queueLen D K 0 n k := queueLen_nonneg D K hD n k hk
      have h1 := hle1 k hk
      by_contra hcon
      push_neg at hcon
      nlinarith
    have hE : specX D K 0 (n + 1) *
        ∑ k in Finset.range K, D.getD k 0 * (queueLen D K 0 (n + 1) k - queueLen D K 0 n k) ≤ 1 := by
      rw [Finset.mul_sum, ← hdiff]
      apply Finset.sum_le_sum
      intro k hk
      have hk' := Finset.mem_range.mp hk
      have h1 := hXD k hk'
      have h2 : 0 ≤ queueLen D K 0 (n + 1) k - queueLen D K 0 n k := sub_nonneg.mpr (hq k hk')
      nlinarith
    have hXle : specX D K 0 (n + 1) ≤ specX D K 0 (n + 1 + 1) := by
      show _ ≤ specX D K 0 (n + 2)
      rw [hX1, hX2, div_le_div_iff₀ hT1 hT2, specTot_succ_succ]
      rw [hX1] at hE
      have hE' : ((n : ℚ) + 1) * ∑ k in Finset.range K,
          D.getD k 0 * (queueLen D K 0 (n + 1) k - queueLen D K 0 n k) ≤ specTot D K 0 (n + 1) := by
        rw [div_mul_eq_mul_div, div_le_iff₀ hT1] at hE
        linarith
      nlinarith
    refine ⟨fun k hk => ?_, hXle⟩
    show specX D K 0 (n + 1) * specR D K 0 (n + 1) k ≤
      specX D K 0 (n + 1 + 1) * specR D K 0 (n + 1 + 1) k
    apply mul_le_mul hXle _ ((hnn (n + 1)).2 k hk) ((hnn (n + 1 + 1)).1)
    rw [specR_succ_queueLen, specR_succ_queueLen D K (n + 1) k]
    exact mul_le_mul_of_nonneg_left (by linarith [hq k hk]) (hD k hk)

theorem nonnegDemand_of_mem (D : List ℚ) (K : Nat) (hD : ∀ d ∈ D, 0 ≤ d) : NonnegDemand D K := by
  intro k _
  by_cases hk : k < D.length
  · rw [List.getD_eq_getElem?_getD, List.getElem?_eq_getElem hk]
    exact hD _ (List.getElem_mem hk)
  · rw [List.getD_eq_getElem?_getD, List.getElem?_eq_none (by omega)]
    exact le_refl _

theorem demand_zero_of_sum_zero (D : List ℚ) (K : Nat) (hD : NonnegDemand D K)
    (hS : ¬ 0 < ∑ k in Finset.range K, D.getD k 0) : ∀ k, k < K → D.getD k 0 = 0 := by
  have h0 : ∑ k in Finset.range K, D.getD k 0 = 0 :=
    le_antisymm (not_lt.mp hS) (Finset.sum_nonneg (fun k hk => hD k (Finset.mem_range.mp hk)))
  intro k hk
  exact (Finset.sum_eq_zero_iff_of_nonneg
    (fun k hk => hD k (Finset.mem_range.mp hk))).mp h0 k (Finset.mem_range.mpr hk)

theorem specR_mono (D : List ℚ) (K : Nat) (hD : NonnegDemand D K) (n k : Nat)
    (hn : 1 ≤ n) (hk : k < K) : specR D K 0 n k ≤ specR D K 0 (n + 1) k := by
  by_cases hS : 0 < ∑ k in Finset.range K, D.getD k 0
  · obtain ⟨m, rfl⟩ : ∃ m, n = m + 1 := ⟨n - 1, by omega⟩
    rw [specR_succ_queueLen, specR_succ_queueLen D K (m + 1) k]
    have := (queueLen_mono D K hD hS m).1 k hk
    exact mul_le_mul_of_nonneg_left (by linarith) (hD k hk)
  · have h0 := demand_zero_of_sum_zero D K hD hS
    rw [specR_degenerate D K 0 h0 n k hk, specR_degenerate D K 0 h0 (n + 1) k hk]

/-! ## The concurrent engine refines the sequential one -/

theorem stationRange_append (D : List ℚ) (lo c1 c2 : Nat) (s : MVAState) :
    stationRange D lo (c1 + c2) s = stationRange D (lo + c1) c2 (stationRange D lo c1 s) := by
  simp only [stationRange]
  rw [← List.foldl_append, List.range'_append_1, Nat.add_comm c2 c1]

theorem stationStep_tot (D : List ℚ) (k : Nat) (s : MVAState) (t : ℚ) :
    stationStep D k { s with tot_resp := s.tot_resp + t } =
      { stationStep D k s with tot_resp := (stationStep D k s).tot_resp + t } := by
  simp only [stationStep, MVAState.mk.injEq, true_and, and_true]
  ring

theorem stationRange_tot (D : List ℚ) (c : Nat) : ∀ (lo : Nat) (s : MVAState) (t : ℚ),
    stationRange D lo c { s with tot_resp := s.tot_resp + t } =
      { stationRange D lo c s with tot_resp := (stationRange D lo c s).tot_resp + t } := by
  induction c with
  | zero => intro lo s t; rfl
  | succ c ih =>
    intro lo s t
    rw [stationRange_succ, stationRange_succ, stationStep_tot]
    exact ih (lo + 1) (stationStep D lo s) t

theorem workerChunks_spec (D : List ℚ) (sizes : List Nat) : ∀ (lo : Nat) (s : MVAState),
    (workerChunks D lo sizes s).1 =
      { stationRange D lo sizes.sum { s with tot_resp := 0 } with tot_resp := s.tot_resp } ∧
    (workerChunks D lo sizes s).2.sum =
      (stationRange D lo sizes.sum { s with tot_resp := 0 }).tot_resp ∧
    (workerChunks D lo sizes s).2.length = sizes.length := by
  induction sizes with
  | nil =>
    intro lo s
    refine ⟨rfl, ?_, rfl⟩
    simp [workerChunks, stationRange]
  | cons c cs ih =>
    intro lo s
    obtain ⟨h1, h2, h3⟩ := ih (lo + c)
      { stationRange D lo c { s with tot_resp := 0 } with tot_resp := s.tot_resp }
    have key := stationRange_tot D cs.sum (lo + c)
      { stationRange D lo c { s with tot_resp := 0 } with tot_resp := 0 }
      (stationRange D lo c { s with tot_resp := 0 }).tot_resp
    simp only [zero_add] at key
    have happ := stationRange_append D lo c cs.sum { s with tot_resp := 0 }
    simp only [workerChunks, List.sum_cons, List.length_cons]
    refine ⟨?_, ?_, by rw [h3]⟩
    · rw [h1, happ, key]
    · rw [h2, happ, key]
      simp only []
      ring

theorem reduceSum_eq_map_sum (ps : List ℚ) : ∀ (order : List Nat) (t : ℚ),
    reduceSum order ps t = t + (order.map (fun i => ps.getD i 0)).sum := by
  intro order
  induction order with
  | nil => intro t; simp [reduceSum]
  | cons a as ih =>
    intro t
    have := ih (t + ps.getD a 0)
    simp only [reduceSum, List.foldl_cons, List.map_cons, List.sum_cons] at this ⊢
    rw [this]
    ring

theorem map_getD_range (ps : List ℚ) :
    (List.range ps.length).map (fun i => ps.getD i 0) = ps := by
  apply List.ext_getElem (by simp)
  intro i h1 h2
  simp [List.getD_eq_getElem?_getD, List.getElem?_eq_getElem h2]

theorem reduceSum_perm (ps : List ℚ) (order : List Nat) (t : ℚ)
    (h : List.Perm order (List.range ps.length)) : reduceSum order ps t = t + ps.sum := by
  rw [reduceSum_eq_map_sum, (h.map (fun i => ps.getD i 0)).sum_eq, map_getD_range]

theorem jobsBody_tot_irrelevant (D : List ℚ) (K : Nat) (Z : ℚ) (jobs : Nat) (s : MVAState)
    (t : ℚ) : jobsBody D K Z jobs { s with tot_resp := t } = jobsBody D K Z jobs s := rfl

theorem jobsBody_MT_eq (sizes order : List Nat) (D : List ℚ) (K : Nat) (Z : ℚ) (jobs : Nat)
    (s : MVAState) (hsum : sizes.sum = K) (hperm : List.Perm order (List.range sizes.length))
    (h0 : s.tot_resp = 0) :
    jobsBody_MT sizes order D Z jobs s = { jobsBody D K Z jobs s with tot_resp := 0 } := by
  obtain ⟨h1, h2, h3⟩ := workerChunks_spec D sizes 0 s
  have hr : reduceSum order (workerChunks D 0 sizes s).2 (workerChunks D 0 sizes s).1.tot_resp =
      (stationRange D 0 K { s with tot_resp := 0 }).tot_resp := by
    rw [reduceSum_perm _ _ _ (by rw [h3]; exact hperm), h2, h1, hsum]
    simp only [h0, zero_add]
  simp only [jobsBody_MT, jobsBody, stationLoop]
  rw [hr, h1, hsum]

theorem jobsLoop_MT_eq (sched : Nat → List Nat × List Nat) (D : List ℚ) (K N : Nat) (Z : ℚ)
    (hs : ValidSched K sched) : ∀ (fuel jobs : Nat) (s : MVAState),
    jobsLoop_MT sched D N Z fuel jobs { s with tot_resp := 0 } =
      (jobsLoop D K N Z fuel jobs s).map (fun x => { x with tot_resp := 0 }) := by
  intro fuel
  induction fuel with
  | zero => intro jobs s; rfl
  | succ fuel ih =>
    intro jobs s
    by_cases hg : jobs ≤ N
    · rw [jobsLoop_MT, jobsLoop, if_pos hg, if_pos hg,
        jobsBody_MT_eq _ _ D K Z jobs _ (hs jobs).1 (hs jobs).2 rfl, jobsBody_tot_irrelevant]
      exact ih _ _
    · rw [jobsLoop_MT, jobsLoop, if_neg hg, if_neg hg]
      rfl

/-- With exact sums the concurrent engine returns what the sequential one
returns, for every schedule, every fuel and every input. -/
theorem exactMVA_MT_eq (sched : Nat → List Nat × List Nat) (fuel : Nat) (resp D : List ℚ)
    (K N : Nat) (Z : ℚ) (hs : ValidSched K sched) :
    exactMVA_MT sched fuel resp D K N Z = exactMVA fuel resp D K N Z := by
  have := jobsLoop_MT_eq sched D K N Z hs fuel 1 (initState resp K)
  rw [exactMVA_MT, exactMVA, exactMVA_run]
  show Option.map _ (jobsLoop_MT sched D N Z fuel 1 { initState resp K with tot_resp := 0 }) = _
  rw [this, Option.map_map]
  rfl

/-! ## The comparison loop -/

theorem checkLoop_self (arr : List ℚ) :
    checkLoop arr arr = { fails := 0, max_diff := 0 } := by
  have h : ∀ (l : List Nat), l.foldl (checkStep arr arr) { fails := 0, max_diff := 0 } =
      { fails := 0, max_diff := 0 } := by
    intro l
    induction l with
    | nil => rfl
    | cons a as ih =>
      rw [List.foldl_cons]
      have : checkStep arr arr { fails := 0, max_diff := 0 } a = { fails := 0, max_diff := 0 } := by
        simp [checkStep, ZERO_APPROX]
      rw [this, ih]
  exact h _

theorem checkArrays_self (arr : List ℚ) :
    checkArrays arr arr =
      Except.ok [CheckLine.almostEquals, CheckLine.maxDifference 0] := by
  simp [checkArrays, checkLoop_self]

/-! ## The run passes through the states `stepState` -/

theorem jobsLoop_reach (D : List ℚ) (K N : Nat) (Z : ℚ) (s0 : MVAState) (hN : N < UINT_RANGE) :
    ∀ (n : Nat), n ≤ N → ∀ fuel,
    jobsLoop D K N Z (fuel + n) 1 s0 =
      jobsLoop D K N Z fuel ((n + 1) % UINT_RANGE) (stepState D K Z s0 n) := by
  intro n
  induction n with
  | zero =>
    intro _ fuel
    have : (0 + 1) % UINT_RANGE = 1 := by decide
    rw [this]
    rfl
  | succ n ih =>
    intro hn fuel
    have h := ih (by omega) (fuel + 1)
    have hmod : (n + 1) % UINT_RANGE = n + 1 := Nat.mod_eq_of_lt (by omega)
    rw [show fuel + (n + 1) = fuel + 1 + n by omega, h, hmod, jobsLoop, if_pos hn]
    have hs : stepState D K Z s0 (n + 1) = jobsBody D K Z (n + 1) (stepState D K Z s0 n) := by
      show jobsBody D K Z ((n + 1) % UINT_RANGE) _ = _
      rw [hmod]
    rw [hs]

/-! ## Equal demands and the single station -/

theorem getD_replicate_lt (K : Nat) (d : ℚ) (i : Nat) (hi : i < K) :
    (List.replicate K d).getD i 0 = d := by
  simp [List.getD_eq_getElem?_getD, List.getElem?_replicate, hi]

theorem specR_symm (K : Nat) (d Z : ℚ) (n i j : Nat) (hi : i < K) (hj : j < K) :
    specR (List.replicate K d) K Z n i = specR (List.replicate K d) K Z n j := by
  induction n with
  | zero => rfl
  | succ n ih =>
    rw [specR_succ, specR_succ, ih, getD_replicate_lt K d i hi, getD_replicate_lt K d j hj]

theorem spec_single_station (n : Nat) :
    specR [1] 1 0 (n + 1) 0 = ((n : ℚ) + 1) ∧ specX [1] 1 0 (n + 1) = 1 := by
  induction n with
  | zero =>
    have hR : specR [1] 1 0 1 0 = 1 := by
      rw [specR_succ, specX_zero, specR_zero]; simp
    refine ⟨by rw [hR]; norm_num, ?_⟩
    rw [specX_succ, Finset.sum_range_one, hR]
    norm_num
  | succ n ih =>
    have hR : specR [1] 1 0 (n + 1 + 1) 0 = ((n : ℚ) + 1 + 1) := by
      rw [specR_succ, ih.1, ih.2]; simp; ring
    refine ⟨by rw [hR]; push_cast; ring, ?_⟩
    rw [specX_succ, Finset.sum_range_one, hR]
    have : ((n : ℚ) + 1 + 1) ≠ 0 := by positivity
    push_cast
    rw [zero_add]
    exact div_self this

theorem mainThroughput_single (r : ℚ) (N : Nat) :
    mainThroughput [r] 1 N 0 = (N : ℚ) / r := by
  simp [mainThroughput, List.range_succ]

/-! ## Population zero -/

/-- C7 (counterexample): with `tot_jobs = 0` and the buffer `[5]` passed in,
`exactMVA` returns and the buffer still holds `5`: the vector after the call is
not the zero vector. -/
theorem exactMVA_zero_jobs_keeps_buffer :
    exactMVA 1 [5] [1] 1 0 0 = some [5] ∧ ¬ (∀ x ∈ ([5] : List ℚ), x = 0) := by
  refine ⟨rfl, ?_⟩
  intro h
  have := h 5 (by simp)
  norm_num at this

/-- C7 (amended): for `tot_jobs = 0` the main cycle is not entered, so the call
returns at once and leaves the response buffer exactly as it was passed in; in
particular a zero-initialised buffer of `num_stations` entries, which is what
`main` passes, is returned as the zero vector. -/
theorem exactMVA_zero_jobs_noop (fuel : Nat) (response demand : List ℚ) (num_stations : Nat)
    (think_time : ℚ) :
    exactMVA (fuel + 1) response demand num_stations 0 think_time = some response ∧
    exactMVA (fuel + 1) (List.replicate num_stations 0) demand num_stations 0 think_time =
      some (List.replicate num_stations 0) :=
  ⟨rfl, rfl⟩

/-! ## Vectors of different sizes -/

/-- C5 (counterexample): for vectors of lengths 3 and 4 `checkArrays` returns
normally after printing one line; it does not fail with an error. -/
theorem checkArrays_sizes_3_4_returns :
    checkArrays [1, 2, 3] [1, 2, 3, 4] = Except.ok [CheckLine.differentSizes] ∧
    ¬ ∃ e, checkArrays [1, 2, 3] [1, 2, 3, 4] = Except.error e := by
  have h : checkArrays [1, 2, 3] [1, 2, 3, 4] = Except.ok [CheckLine.differentSizes] := by
    simp [checkArrays]
  refine ⟨h, ?_⟩
  rintro ⟨e, he⟩
  rw [h] at he
  cases he

/-- C5 (amended): for vectors whose lengths differ `checkArrays` attempts no
comparison, prints the single line "Arrays to be compared have different sizes!"
and returns normally: it prints neither a failing count nor a maximum
difference, and it raises no error. -/
theorem checkArrays_size_mismatch (arr1 arr2 : List ℚ) (h : arr1.length ≠ arr2.length) :
    checkArrays arr1 arr2 = Except.ok [CheckLine.differentSizes] := by
  simp [checkArrays, h]

theorem checkArrays_size_mismatch_witness :
    ([7] : List ℚ).length ≠ ([7, 8] : List ℚ).length ∧
    checkArrays [7] [7, 8] = Except.ok [CheckLine.differentSizes] :=
  ⟨by decide, checkArrays_size_mismatch [7] [7, 8] (by decide)⟩

/-! ## The verdict of the comparator -/

theorem specVec_degenerate (K : Nat) (Z : ℚ) (n : Nat) :
    specVec (List.replicate K 0) K Z n = List.replicate K 0 := by
  apply list_ext_getD
  · simp [specVec]
  · intro i hi
    rw [specVec_length] at hi
    rw [specVec_getD _ K Z n i hi, getD_replicate_lt K 0 i hi]
    exact specR_degenerate _ K Z (fun k hk => getD_replicate_lt K 0 k hk) n i hi

/-- C3 (counterexample): for `D = [0.0, 0.0]`, `think_time = 0` and one job the
divisor `think_time + tot_resp` of step 1 is `0`, and both engines return
normally and leave the residence vector `[0, 0]`. -/
theorem degenerate_two_stations_returns :
    (exactMVA_run 2 [0, 0] [0, 0] 2 1 0).map (fun s => (0 : ℚ) + s.tot_resp) = some 0 ∧
    exactMVA 2 [0, 0] [0, 0] 2 1 0 = some [0, 0] ∧
    exactMVA_MT (fun _ => ([1, 1], [0, 1])) 2 [0, 0] [0, 0] 2 1 0 = some [0, 0] := by
  refine ⟨?_, ?_, ?_⟩
  · simp [exactMVA_run, jobsLoop, jobsBody, stationLoop, stationRange, stationStep,
      initState, UINT_RANGE, List.range']
  · simp [exactMVA, exactMVA_run, jobsLoop, jobsBody, stationLoop, stationRange, stationStep,
      initState, UINT_RANGE, List.range']
  · simp [exactMVA_MT, jobsLoop_MT, jobsBody_MT, workerChunks, reduceSum, stationRange,
      stationStep, initState, UINT_RANGE, List.range']

/-- C3 (amended): neither engine has an error path.  For the all-zero network
with `think_time = 0` and `tot_jobs = 1` the divisor `think_time + tot_resp` of
step 1 is `0`, the division is carried out all the same, and both engines return
normally and leave the all-zero residence vector; and for every network, every
think time and every population `tot_jobs <= 2 ^ 32 - 2` both engines return a
residence vector. -/
theorem degenerate_network_returns (sched : Nat → List Nat × List Nat) (response : List ℚ)
    (num_stations : Nat) (hr : response.length = num_stations)
    (hs : ValidSched num_stations sched) :
    (∃ s, exactMVA_run 2 response (List.replicate num_stations 0) num_stations 1 0 = some s ∧
      (0 : ℚ) + s.tot_resp = 0) ∧
    exactMVA 2 response (List.replicate num_stations 0) num_stations 1 0 =
      some (List.replicate num_stations 0) ∧
    exactMVA_MT sched 2 response (List.replicate num_stations 0) num_stations 1 0 =
      some (List.replicate num_stations 0) ∧
    (∀ (demand : List ℚ) (tot_jobs : Nat) (think_time : ℚ), tot_jobs + 1 < UINT_RANGE →
      ∃ r, exactMVA (tot_jobs + 1) response demand num_stations tot_jobs think_time = some r ∧
        exactMVA_MT sched (tot_jobs + 1) response demand num_stations tot_jobs think_time =
          some r) := by
  have h1 : (1 : Nat) + 1 < UINT_RANGE := by decide
  have hST : exactMVA 2 response (List.replicate num_stations 0) num_stations 1 0 =
      some (List.replicate num_stations 0) := by
    rw [exactMVA_char 2 response _ num_stations 1 0 hr (le_refl _) h1, if_pos (by decide),
      specVec_degenerate]
  refine ⟨?_, hST, ?_, ?_⟩
  · refine ⟨stepState (List.replicate num_stations 0) num_stations 0
      (initState response num_stations) 1, ?_, ?_⟩
    · rw [exactMVA_run_char 2 response _ num_stations 1 0 h1, if_pos (by decide)]
    · obtain ⟨_, _, _, _, h5⟩ := stepState_spec (List.replicate num_stations 0) num_stations 0
        response hr 1 (by decide)
      rw [(h5 (le_refl _)).2, zero_add]
      exact Finset.sum_eq_zero (fun k hk => specR_degenerate _ num_stations 0
        (fun k hk => getD_replicate_lt num_stations 0 k hk) 1 k (Finset.mem_range.mp hk))
  · rw [exactMVA_MT_eq sched 2 response _ num_stations 1 0 hs, hST]
  · intro demand tot_jobs think_time hN
    have hrun := exactMVA_run_char (tot_jobs + 1) response demand num_stations tot_jobs
      think_time hN
    rw [if_pos (Nat.lt_succ_self _)] at hrun
    refine ⟨(stepState demand num_stations think_time (initState response num_stations)
      tot_jobs).response, ?_, ?_⟩
    · rw [exactMVA, hrun]; rfl
    · rw [exactMVA_MT_eq sched _ response demand num_stations tot_jobs think_time hs,
        exactMVA, hrun]; rfl

theorem degenerate_network_returns_witness :
    exactMVA 2 [3, 4] (List.replicate 2 0) 2 1 0 = some (List.replicate 2 0) ∧
    exactMVA_MT (fun _ => ([1, 1], [1, 0])) 2 [3, 4] (List.replicate 2 0) 2 1 0 =
      some (List.replicate 2 0) :=
  ⟨(degenerate_network_returns (fun _ => ([1, 1], [1, 0])) [3, 4] 2 rfl
      (fun _ => ⟨rfl, (show List.Perm [1, 0] (List.range 2) by decide)⟩)).2.1,
   (degenerate_network_returns (fun _ => ([1, 1], [1, 0])) [3, 4] 2 rfl
      (fun _ => ⟨rfl, (show List.Perm [1, 0] (List.range 2) by decide)⟩)).2.2.1⟩

/-! ## Agreement of the two engines -/

/-- Over exact arithmetic the concurrent engine agrees with the sequential one
for every schedule (every split of the stations into per-worker blocks and every
order in which the private sums are combined, which may change from one
population step to the next): `exactMVA_MT` behaves as `exactMVA` for every
fuel, whatever vectors the two calls leave are the same vector, on which
`checkArrays` counts `0` failing entries, and for `tot_jobs <= 2 ^ 32 - 2` both
calls return.  The double additions of the code are not associative, and with
them the agreement holds for a single worker only. -/
theorem exactMVA_MT_exact_agrees (sched : Nat → List Nat × List Nat) (response demand : List ℚ)
    (num_stations tot_jobs : Nat) (think_time : ℚ)
    (hN : tot_jobs < UINT_RANGE) (hs : ValidSched num_stations sched) :
    (∀ fuel, exactMVA_MT sched fuel response demand num_stations tot_jobs think_time =
      exactMVA fuel response demand num_stations tot_jobs think_time) ∧
    (∀ f1 f2 rST rMT,
      exactMVA f1 response demand num_stations tot_jobs think_time = some rST →
      exactMVA_MT sched f2 response demand num_stations tot_jobs think_time = some rMT →
      rMT = rST ∧ (checkLoop rST rMT).fails = 0 ∧
      checkArrays rST rMT =
        Except.ok [CheckLine.almostEquals, CheckLine.maxDifference 0]) ∧
    (tot_jobs + 1 < UINT_RANGE →
      ∃ r, exactMVA (tot_jobs + 1) response demand num_stations tot_jobs think_time = some r ∧
        exactMVA_MT sched (tot_jobs + 1) response demand num_stations tot_jobs think_time =
          some r) := by
  have heq := fun fuel =>
    exactMVA_MT_eq sched fuel response demand num_stations tot_jobs think_time hs
  have hres : ∀ f r, exactMVA f response demand num_stations tot_jobs think_time = some r →
      r = (stepState demand num_stations think_time (initState response num_stations)
        tot_jobs).response := by
    intro f r h
    rw [exactMVA] at h
    cases hrun : exactMVA_run f response demand num_stations tot_jobs think_time with
    | none => rw [hrun] at h; exact absurd h (by simp)
    | some s =>
      rw [hrun, Option.map_some'] at h
      rw [← Option.some.inj h, (exactMVA_run_some f response demand num_stations tot_jobs
        think_time s hN hrun).2]
  refine ⟨heq, ?_, ?_⟩
  · intro f1 f2 rST rMT h1 h2
    rw [heq f2] at h2
    have e : rMT = rST := by rw [hres f1 rST h1, hres f2 rMT h2]
    subst e
    exact ⟨rfl, by rw [checkLoop_self], checkArrays_self rMT⟩
  · intro hN1
    have hrun := exactMVA_run_char (tot_jobs + 1) response demand num_stations tot_jobs
      think_time hN1
    rw [if_pos (Nat.lt_succ_self _)] at hrun
    refine ⟨(stepState demand num_stations think_time (initState response num_stations)
      tot_jobs).response, ?_, ?_⟩
    · rw [exactMVA, hrun]; rfl
    · rw [heq, exactMVA, hrun]; rfl

theorem exactMVA_MT_exact_agrees_witness :
    exactMVA_MT (fun jobs => if jobs % 2 = 0 then ([2, 1], [1, 0]) else ([0, 1, 1, 1], [2, 0, 3, 1]))
      4 [7, 9, 2] [1, 1 / 2, 3] 3 3 (1 / 4) =
    exactMVA 4 [7, 9, 2] [1, 1 / 2, 3] 3 3 (1 / 4) :=
  (exactMVA_MT_exact_agrees
    (fun jobs => if jobs % 2 = 0 then ([2, 1], [1, 0]) else ([0, 1, 1, 1], [2, 0, 3, 1]))
    [7, 9, 2] [1, 1 / 2, 3] 3 3 (1 / 4) (by decide)
    (fun jobs => by
      by_cases h : jobs % 2 = 0
      · simp only [h, if_true]
        exact ⟨rfl, (show List.Perm [1, 0] (List.range 2) by decide)⟩
      · simp only [h, if_false]
        exact ⟨rfl, (show List.Perm [2, 0, 3, 1] (List.range 4) by decide)⟩)).1 4

/-! ## Symmetry -/

/-- C9: if every entry of the demand vector is the same value `d`, then for
every think time, every response buffer of `num_stations` entries and every
population `tot_jobs >= 1`, every vector `exactMVA` leaves has `num_stations`
entries that are all equal to each other; and the call does leave a vector for
every `tot_jobs <= 2 ^ 32 - 2`.  The stations stay equal also through a step
whose divisor is `0`, since all of them read the same `thr`. -/
theorem exactMVA_equal_demands (response : List ℚ) (num_stations tot_jobs : Nat)
    (d think_time : ℚ) (hr : response.length = num_stations) (hN1 : 1 ≤ tot_jobs)
    (hN : tot_jobs < UINT_RANGE) :
    (∀ fuel r, exactMVA fuel response (List.replicate num_stations d) num_stations tot_jobs
        think_time = some r →
      r.length = num_stations ∧
      ∀ i j, i < num_stations → j < num_stations → r.getD i 0 = r.getD j 0) ∧
    (tot_jobs + 1 < UINT_RANGE →
      ∃ r, exactMVA (tot_jobs + 1) response (List.replicate num_stations d) num_stations
        tot_jobs think_time = some r) := by
  refine ⟨?_, ?_⟩
  · intro fuel r h
    have hr' := exactMVA_some fuel response _ r num_stations tot_jobs think_time hr hN1 hN h
    subst hr'
    refine ⟨specVec_length _ _ _ _, ?_⟩
    intro i j hi hj
    rw [specVec_getD _ _ _ _ i hi, specVec_getD _ _ _ _ j hj]
    exact specR_symm num_stations d think_time tot_jobs i j hi hj
  · intro hN'
    refine ⟨specVec (List.replicate num_stations d) num_stations think_time tot_jobs, ?_⟩
    rw [exactMVA_char _ response _ num_stations tot_jobs think_time hr hN1 hN',
      if_pos (Nat.lt_succ_self _)]

theorem exactMVA_equal_demands_witness :
    ∃ r, exactMVA 3 [4, 5, 6] (List.replicate 3 (1 / 2)) 3 2 1 = some r ∧
      r.getD 0 0 = r.getD 2 0 := by
  obtain ⟨h1, h2⟩ := exactMVA_equal_demands [4, 5, 6] 3 2 (1 / 2) 1 rfl (by decide) (by decide)
  obtain ⟨r, hr⟩ := h2 (by decide)
  exact ⟨r, hr, (h1 3 r hr).2 0 2 (by decide) (by decide)⟩

/-! ## Single-station saturation -/

/-- C8: for `D = [1.0]` and `think_time = 0`, whatever the response buffer holds
on entry, the state at the end of population step `n >= 1` has `thr = 1` and
`response = [n]`.  Every run with `tot_jobs >= n` is in that state after its
first `n` passes through the main cycle; the run with `tot_jobs = n` leaves
the vector `[n]`, from which `main` derives the throughput `n / (0 + n) = 1`,
and it returns for every `n <= 2 ^ 32 - 2`. -/
theorem single_station_saturation (response : List ℚ) (n : Nat) (hr : response.length = 1)
    (hn1 : 1 ≤ n) (hn : n < UINT_RANGE) :
    (stepState [1] 1 0 (initState response 1) n).thr = 1 ∧
    (stepState [1] 1 0 (initState response 1) n).response = [(n : ℚ)] ∧
    (∀ tot_jobs fuel, n ≤ tot_jobs → tot_jobs < UINT_RANGE →
      exactMVA_run (fuel + n) response [1] 1 tot_jobs 0 =
        jobsLoop [1] 1 tot_jobs 0 fuel ((n + 1) % UINT_RANGE)
          (stepState [1] 1 0 (initState response 1) n)) ∧
    (∀ fuel r, exactMVA fuel response [1] 1 n 0 = some r →
      r = [(n : ℚ)] ∧ mainThroughput r 1 n 0 = 1) ∧
    (n + 1 < UINT_RANGE → exactMVA (n + 1) response [1] 1 n 0 = some [(n : ℚ)]) := by
  obtain ⟨m, rfl⟩ : ∃ m, n = m + 1 := ⟨n - 1, by omega⟩
  obtain ⟨hR, hX⟩ := spec_single_station m
  have hvec : specVec [1] 1 0 (m + 1) = [((m + 1 : Nat) : ℚ)] := by
    have h1 : List.range 1 = [0] := rfl
    simp only [specVec, h1, List.map_cons, List.map_nil, hR]
    push_cast; rfl
  obtain ⟨_, _, h3, _, _⟩ := stepState_spec [1] 1 0 response hr (m + 1) hn
  have hne : ((m + 1 : Nat) : ℚ) ≠ 0 := by positivity
  refine ⟨by rw [h3, hX], ?_, ?_, ?_, ?_⟩
  · rw [stepState_response [1] 1 0 response hr (m + 1) hn1 hn, hvec]
  · intro tot_jobs fuel hle hlt
    exact jobsLoop_reach [1] 1 tot_jobs 0 (initState response 1) hlt (m + 1) hle fuel
  · intro fuel r h
    have := exactMVA_some fuel response [1] r 1 (m + 1) 0 hr hn1 hn h
    rw [this, hvec, mainThroughput_single]
    exact ⟨rfl, div_self hne⟩
  · intro hlt
    rw [exactMVA_char _ response [1] 1 (m + 1) 0 hr hn1 hlt, if_pos (Nat.lt_succ_self _), hvec]

theorem single_station_saturation_witness :
    exactMVA 4 [9] [1] 1 3 0 = some [((3 : Nat) : ℚ)] ∧
    (stepState [1] 1 0 (initState [9] 1) 3).thr = 1 :=
  ⟨(single_station_saturation [9] 3 rfl (by decide) (by decide)).2.2.2.2 (by decide),
   (single_station_saturation [9] 3 rfl (by decide) (by decide)).1⟩

/-! ## Monotonicity of the response vector -/

theorem divisorAt_eq (response demand : List ℚ) (K : Nat) (Z : ℚ)
    (hr : response.length = K) (n : Nat) (hn1 : 1 ≤ n) (hn : n < UINT_RANGE) :
    divisorAt response demand K Z n = Z + specTot demand K Z n := by
  obtain ⟨_, _, _, _, h5⟩ := stepState_spec demand K Z response hr n hn
  rw [divisorAt, (h5 hn1).2]
  rfl

/-- C6 (counterexample): in double arithmetic, for the all-zero network
`D = [0.0, 0.0]` with `think_time = 0` and a zero-initialised response vector,
`exactMVA` leaves `[0, 0]` for population `1` and `[NaN, NaN]` for population
`2` (step 1 sets `thr = 1/0 = inf`, step 2 computes `inf * 0 = NaN`), and
`0 <= NaN` is false: `R_k(1) <= R_k(2)` fails at both stations. -/
theorem exactMVA_dbl_zero_network_not_monotone :
    exactMVA_dbl 2 [Dbl.fin 0, Dbl.fin 0] [Dbl.fin 0, Dbl.fin 0] 2 1 (Dbl.fin 0) =
      some [Dbl.fin 0, Dbl.fin 0] ∧
    exactMVA_dbl 3 [Dbl.fin 0, Dbl.fin 0] [Dbl.fin 0, Dbl.fin 0] 2 2 (Dbl.fin 0) =
      some [Dbl.nan, Dbl.nan] ∧
    Dbl.le (Dbl.fin 0) Dbl.nan = false := by
  refine ⟨by decide!, by decide!, rfl⟩

/-- In double arithmetic the inequality can also fail by one rounding step in a
network with positive demands: for `D = [7, 1]`, `think_time = 0` and a
zero-initialised response vector, station 1 has
`R_1(37) = 5254199565265579 * 2^-52` and `R_1(38) = 5254199565265578 * 2^-52`. -/
theorem exactMVA_dbl_rounding_not_monotone :
    (exactMVA_dbl 38 [Dbl.fin 0, Dbl.fin 0] [Dbl.fin 7, Dbl.fin 1] 2 37 (Dbl.fin 0)).map
      (fun r => r.getD 1 Dbl.nan) = some (Dbl.fin (5254199565265579 / 2 ^ 52)) ∧
    (exactMVA_dbl 39 [Dbl.fin 0, Dbl.fin 0] [Dbl.fin 7, Dbl.fin 1] 2 38 (Dbl.fin 0)).map
      (fun r => r.getD 1 Dbl.nan) = some (Dbl.fin (5254199565265578 / 2 ^ 52)) ∧
    Dbl.le (Dbl.fin (5254199565265579 / 2 ^ 52)) (Dbl.fin (5254199565265578 / 2 ^ 52)) =
      false := by
  refine ⟨by decide!, by decide!, by decide!⟩

/-- C6 (amended): read over exact arithmetic, with `think_time = 0`, every
demand `>= 0` and at least one demand of the stations `> 0`: every divisor of
the two runs is strictly positive, and for every station `k` and every
population `n >= 1` the response time `exactMVA` leaves for population `n + 1`
is at least the one it leaves for population `n`, both runs started from a
zero-initialised response vector; both runs return whenever
`n + 1 <= 2 ^ 32 - 2`. -/
theorem exactMVA_monotone (demand : List ℚ) (num_stations n k : Nat)
    (hD : ∀ d ∈ demand, 0 ≤ d) (hpos : ∃ j, j < num_stations ∧ 0 < demand.getD j 0)
    (hn1 : 1 ≤ n) (hn : n + 1 < UINT_RANGE) (hk : k < num_stations) :
    (∀ m, 1 ≤ m → m ≤ n + 1 →
      0 < divisorAt (List.replicate num_stations 0) demand num_stations 0 m) ∧
    (∀ f1 f2 r1 r2,
      exactMVA f1 (List.replicate num_stations 0) demand num_stations n 0 = some r1 →
      exactMVA f2 (List.replicate num_stations 0) demand num_stations (n + 1) 0 = some r2 →
      r1.getD k 0 ≤ r2.getD k 0) ∧
    (n + 1 + 1 < UINT_RANGE →
      ∃ r1 r2,
        exactMVA (n + 2) (List.replicate num_stations 0) demand num_stations n 0 = some r1 ∧
        exactMVA (n + 2) (List.replicate num_stations 0) demand num_stations (n + 1) 0 =
          some r2) := by
  have hlen : (List.replicate num_stations (0 : ℚ)).length = num_stations := by simp
  have hnn := nonnegDemand_of_mem demand num_stations hD
  have hsum : 0 < (0 : ℚ) + ∑ i in Finset.range num_stations, demand.getD i 0 := by
    obtain ⟨j, hj, hjpos⟩ := hpos
    have := Finset.single_le_sum (f := fun i => demand.getD i 0)
      (fun i hi => hnn i (Finset.mem_range.mp hi)) (Finset.mem_range.mpr hj)
    simp only [] at this
    linarith
  refine ⟨?_, ?_, ?_⟩
  · intro m hm1 hm
    obtain ⟨m', rfl⟩ : ∃ m', m = m' + 1 := ⟨m - 1, by omega⟩
    rw [divisorAt_eq _ demand num_stations 0 hlen (m' + 1) hm1 (by omega)]
    exact divisor_pos demand num_stations 0 hnn (le_refl _) hsum m'
  · intro f1 f2 r1 r2 h1 h2
    rw [exactMVA_some f1 _ demand r1 num_stations n 0 hlen hn1 (by omega) h1,
      exactMVA_some f2 _ demand r2 num_stations (n + 1) 0 hlen (by omega) hn h2,
      specVec_getD _ _ _ _ k hk, specVec_getD _ _ _ _ k hk]
    exact specR_mono demand num_stations hnn n k hn1 hk
  · intro hn2
    refine ⟨specVec demand num_stations 0 n, specVec demand num_stations 0 (n + 1), ?_, ?_⟩
    · rw [exactMVA_char _ _ demand num_stations n 0 hlen hn1 (by omega), if_pos (by omega)]
    · rw [exactMVA_char _ _ demand num_stations (n + 1) 0 hlen (by omega) hn2,
        if_pos (by omega)]

theorem exactMVA_monotone_witness :
    ∃ r1 r2, exactMVA 4 (List.replicate 3 0) [1 / 2, 1 / 3, 2] 3 2 0 = some r1 ∧
      exactMVA 4 (List.replicate 3 0) [1 / 2, 1 / 3, 2] 3 (2 + 1) 0 = some r2 ∧
      r1.getD 1 0 ≤ r2.getD 1 0 := by
  obtain ⟨_, h1, h2⟩ := exactMVA_monotone [1 / 2, 1 / 3, 2] 3 2 1
    (by intro d hd; simp at hd; rcases hd with h | h | h <;> rw [h] <;> norm_num)
    ⟨0, by decide, by norm_num⟩
    (by decide) (by decide) (by decide)
  obtain ⟨r1, r2, e1, e2⟩ := h2 (by decide)
  exact ⟨r1, r2, e1, e2, h1 4 4 r1 r2 e1 e2⟩

/-! ## The divisor of the throughput update -/

/-- The two-station example of the specification: `D = [1, 1]`, `N = 2`, `Z = 0`.
After step 1 the response vector is `[1, 1]` and `thr = 1/2`; the call leaves
`[3/2, 3/2]`, with `thr = 2/3` after step 2, whatever the buffer held on entry. -/
theorem two_station_example (response : List ℚ) (hr : response.length = 2) :
    (stepState [1, 1] 2 0 (initState response 2) 1).response = [1, 1] ∧
    (stepState [1, 1] 2 0 (initState response 2) 1).thr = 1 / 2 ∧
    exactMVA 3 response [1, 1] 2 2 0 = some [3 / 2, 3 / 2] ∧
    (stepState [1, 1] 2 0 (initState response 2) 2).thr = 2 / 3 := by
  have hR1 : ∀ k, k < 2 → specR [1, 1] 2 0 1 k = 1 := by
    intro k hk
    rw [specR_succ, specX_zero]
    interval_cases k <;> simp
  have hX1 : specX [1, 1] 2 0 1 = 1 / 2 := by
    rw [specX_succ, Finset.sum_range_succ, Finset.sum_range_one, hR1 0 (by decide),
      hR1 1 (by decide)]
    norm_num
  have hR2 : ∀ k, k < 2 → specR [1, 1] 2 0 2 k = 3 / 2 := by
    intro k hk
    rw [specR_succ, hX1, hR1 k hk]
    interval_cases k <;> simp <;> norm_num
  have hX2 : specX [1, 1] 2 0 2 = 2 / 3 := by
    rw [specX_succ, Finset.sum_range_succ, Finset.sum_range_one, hR2 0 (by decide),
      hR2 1 (by decide)]
    norm_num
  have hv : ∀ n v, (∀ k, k < 2 → specR [1, 1] 2 0 n k = v) → specVec [1, 1] 2 0 n = [v, v] := by
    intro n v h
    have h2 : List.range 2 = [0, 1] := rfl
    simp only [specVec, h2, List.map_cons, List.map_nil, h 0 (by decide), h 1 (by decide)]
  refine ⟨?_, ?_, ?_, ?_⟩
  · rw [stepState_response [1, 1] 2 0 response hr 1 (le_refl _) (by decide), hv 1 1 hR1]
  · rw [(stepState_spec [1, 1] 2 0 response hr 1 (by decide)).2.2.1, hX1]
  · rw [exactMVA_char 3 response [1, 1] 2 2 0 hr (by decide) (by decide), if_pos (by decide),
      hv 2 (3 / 2) hR2]
  · rw [(stepState_spec [1, 1] 2 0 response hr 2 (by decide)).2.2.1, hX2]

/-- For every demand vector, every think time, every response buffer of
`num_stations` entries and every population `1 <= N <= 2 ^ 32 - 2`, the call
returns with fuel `N + 1` and the vector it leaves is `R(N)` of the recurrence
of the specification, station by station. -/
theorem exactMVA_recurrence_in_range (response demand : List ℚ) (num_stations tot_jobs : Nat)
    (think_time : ℚ) (hr : response.length = num_stations) (hN1 : 1 ≤ tot_jobs)
    (hN : tot_jobs + 1 < UINT_RANGE) :
    ∃ r, exactMVA (tot_jobs + 1) response demand num_stations tot_jobs think_time = some r ∧
      r.length = num_stations ∧
      ∀ k, k < num_stations → r.getD k 0 = specR demand num_stations think_time tot_jobs k := by
  refine ⟨specVec demand num_stations think_time tot_jobs, ?_, specVec_length _ _ _ _, ?_⟩
  · rw [exactMVA_char _ response demand num_stations tot_jobs think_time hr hN1 hN,
      if_pos (Nat.lt_succ_self _)]
  · intro k hk
    exact specVec_getD _ _ _ _ k hk

/-- C1 (failing input): for `tot_jobs = 4294967295 = 2 ^ 32 - 1` the guard
`jobs <= tot_jobs` of the main cycle holds for every value of the `uint`
counter, which wraps from `2 ^ 32 - 1` to `0`: the call never returns, whatever
the fuel, so no response vector is left after it. -/
theorem exactMVA_hangs_at_uint_max :
    ∀ fuel, exactMVA fuel [0, 0] [1, 1] 2 4294967295 0 = none := by
  intro fuel
  have h := exactMVA_run_diverges fuel [0, 0] [1, 1] 2 0
  have e : UINT_RANGE - 1 = 4294967295 := by decide
  rw [e] at h
  rw [exactMVA, h]
  rfl

/-! ## Rounding to double -/

end ExactMVA
